import Mathlib

/-!
A shallow embedding of the trace-extraction and post-processing logic of
`python/pipeline/preprocess.py`, together with theorems checking the
specification's claims about it.

Conventions:
* numpy float arrays are modelled as `List ℚ`; arrays that may hold NaN are
  modelled as `List (Option ℚ)`, `none` playing the role of NaN;
* raw integer-valued scans are `List ℤ`, and `np.double` is the
  value-preserving cast into `List ℚ`;
* a raised Python exception is `Except.error`; database inserts are modelled
  as explicit lists of records returned on success;
* external numerical libraries (the CNMF solver, `scipy` window/convolution
  code, the spike-inference backends) enter the model as function
  parameters, exactly where the source calls out to them.
-/

namespace Pipeline

/-- Python 3 `round` on an exact rational: round to nearest, ties to even. -/
def pyRound (q : ℚ) : ℤ :=
  if q - ⌊q⌋ < 1/2 then ⌊q⌋
  else if 1/2 < q - ⌊q⌋ then ⌊q⌋ + 1
  else if Even ⌊q⌋ then ⌊q⌋ else ⌊q⌋ + 1

/-- The estimate `pyRound` rounds is never below the floor. -/
lemma floor_le_pyRound (q : ℚ) : ⌊q⌋ ≤ pyRound q := by
  unfold pyRound
  split_ifs <;> omega

/-- The estimate `pyRound` rounds is never above the ceiling of the floor
plus one. -/
lemma pyRound_le_floor_add_one (q : ℚ) : pyRound q ≤ ⌊q⌋ + 1 := by
  unfold pyRound
  split_ifs <;> omega

/-- Monotonicity of `pyRound`. -/
lemma pyRound_mono {a b : ℚ} (hab : a ≤ b) : pyRound a ≤ pyRound b := by
  have hfab : ⌊a⌋ ≤ ⌊b⌋ := Int.floor_le_floor hab
  by_cases hf : ⌊a⌋ = ⌊b⌋
  · unfold pyRound
    rw [hf]
    have hfr : a - ⌊b⌋ ≤ b - ⌊b⌋ := by linarith
    split_ifs <;> first | omega | linarith
  · have hlt : ⌊a⌋ < ⌊b⌋ := lt_of_le_of_ne hfab hf
    have h1 := pyRound_le_floor_add_one a
    have h2 := floor_le_pyRound b
    omega

/-- Model of `Prepare.Galvo.estimate_num_components_per_slice`: slice volume from the
scan geometry (micrometers) with an assumed 10 µm slice thickness, times a
density of 0.0001 components/µm³ for somatic scans and ten times that for
axonal/dendritic scans (the target-structure branch), rounded to an
integer. -/
def estimate_num_components_per_slice (um_height um_width : ℚ)
    (is_axonal : Bool) : ℤ :=
  let slice_thickness : ℚ := 10
  let slice_volume := um_width * um_height * slice_thickness
  let num_components :=
    if is_axonal then slice_volume * (1/1000) else slice_volume * (1/10000)
  pyRound num_components

/-- The pre-rounding component count of
`estimate_num_components_per_slice`. -/
def unrounded_components_per_slice (um_height um_width : ℚ)
    (is_axonal : Bool) : ℚ :=
  um_width * um_height * 10 * (if is_axonal then 1/1000 else 1/10000)

lemma estimate_eq_pyRound_unrounded (um_height um_width : ℚ)
    (is_axonal : Bool) :
    estimate_num_components_per_slice um_height um_width is_axonal =
      pyRound (unrounded_components_per_slice um_height um_width is_axonal) := by
  unfold estimate_num_components_per_slice unrounded_components_per_slice
  cases is_axonal <;> rfl

/-- C6 (corrected): the integer estimate is monotone in slice volume, the
estimate is the rounding of the pre-rounding count, and before rounding the
axonal/dendritic count is exactly ten times the somatic one; after integer
rounding the exact 10× relation fails (see the counterexample). -/
theorem estimate_num_components_props :
    (∀ (ha wa hb wb : ℚ) (ax : Bool), wa * ha ≤ wb * hb →
      estimate_num_components_per_slice ha wa ax ≤
        estimate_num_components_per_slice hb wb ax)
    ∧ (∀ (h w : ℚ) (ax : Bool),
        estimate_num_components_per_slice h w ax =
          pyRound (unrounded_components_per_slice h w ax))
    ∧ (∀ (h w : ℚ),
        unrounded_components_per_slice h w true =
          10 * unrounded_components_per_slice h w false) := by
  refine ⟨?_, estimate_eq_pyRound_unrounded, ?_⟩
  · intro ha wa hb wb ax hv
    rw [estimate_eq_pyRound_unrounded, estimate_eq_pyRound_unrounded]
    apply pyRound_mono
    unfold unrounded_components_per_slice
    cases ax <;> · norm_num ; nlinarith
  · intro h w
    unfold unrounded_components_per_slice
    norm_num
    ring

/-- Witness for C6: volumes 4400 ≤ 8800 µm³ give estimates 0 ≤ 1 (somatic),
and the pre-rounding 10× relation at a 10 × 44 µm slice. -/
theorem estimate_num_components_props_witness :
    estimate_num_components_per_slice 10 44 false ≤
      estimate_num_components_per_slice 20 44 false
    ∧ unrounded_components_per_slice 10 44 true =
        10 * unrounded_components_per_slice 10 44 false :=
  ⟨estimate_num_components_props.1 10 44 20 44 false (by norm_num),
   estimate_num_components_props.2.2 10 44⟩

/-- Counterexample for C6: a 10 µm × 44 µm slice (volume 4400 µm³) rounds
to 0 somatic components but 4 axonal ones, so the integer axonal estimate
is not ten times the somatic one. -/
theorem estimate_num_components_cex :
    estimate_num_components_per_slice 10 44 true = 4
    ∧ estimate_num_components_per_slice 10 44 false = 0
    ∧ estimate_num_components_per_slice 10 44 true ≠
        10 * estimate_num_components_per_slice 10 44 false := by
  have h1 : estimate_num_components_per_slice 10 44 true = 4 := by
    norm_num [estimate_num_components_per_slice, pyRound]
  have h2 : estimate_num_components_per_slice 10 44 false = 0 := by
    norm_num [estimate_num_components_per_slice, pyRound]
  exact ⟨h1, h2, by rw [h1, h2]; decide⟩

/-- Model of `Prepare.Galvo.get_correct_raster`: returns the raster-correction
function for one scan.  The nonzero-phase branch delegates to the external
`galvo_corrections.correct_raster`, modelled as the parameter `correct`;
the zero-phase branch is `lambda scan: np.double(scan)`. -/
def get_correct_raster (correct : ℚ → ℚ → List ℤ → List ℚ)
    (raster_phase fill_fraction : ℚ) : List ℤ → List ℚ :=
  if raster_phase = 0 then fun scan => scan.map fun v : ℤ => (v : ℚ)
  else fun scan => correct raster_phase fill_fraction scan

/-- C7 (confirmed): with `raster_phase = 0` the returned correction maps any
frame stack to itself cast to floating point, every value unchanged. -/
theorem correct_raster_identity (correct : ℚ → ℚ → List ℤ → List ℚ)
    (raster_phase fill_fraction : ℚ) (scan : List ℤ)
    (h : raster_phase = 0) :
    get_correct_raster correct raster_phase fill_fraction scan =
      scan.map (fun v : ℤ => (v : ℚ))
    ∧ ∀ i, (get_correct_raster correct raster_phase fill_fraction scan).get? i =
        (scan.get? i).map fun v : ℤ => (v : ℚ) := by
  subst h
  have h1 : get_correct_raster correct 0 fill_fraction scan =
      scan.map (fun v : ℤ => (v : ℚ)) := by
    unfold get_correct_raster
    rw [if_pos rfl]
  refine ⟨h1, fun i => ?_⟩
  rw [h1, List.get?_map]

/-- Witness for C7: the zero-phase correction on a concrete scan. -/
theorem correct_raster_identity_witness :
    get_correct_raster (fun _ _ _ => []) 0 1 [3, -2] = [(3 : ℚ), -2] :=
  ((correct_raster_identity (fun _ _ _ => []) 0 1 [3, -2] rfl).1).trans (by decide)

/-- Frame-count reconciliation of `Eye.grab_timestamps_and_frames`:
`total_frames` is the timestamp count, `no_frames` the video frame count;
when they disagree, timestamps are truncated to the video frame count only
if `total_frames > no_frames and total_frames and no_frames`, and otherwise
`PipelineException('Can not reconcile frame count')` is raised. -/
def reconcile_frame_counts (eye_time : List ℚ) (no_frames : ℕ) :
    Except String (List ℚ × ℕ) :=
  if eye_time.length ≠ no_frames then
    if eye_time.length > no_frames ∧ eye_time.length ≠ 0 ∧ no_frames ≠ 0 then
      .ok (eye_time.take no_frames, no_frames)
    else .error "Can not reconcile frame count"
  else .ok (eye_time, eye_time.length)

/-- Model of `Eye._make_tuples`: the eye record is inserted only after
`grab_timestamps_and_frames` returns; a reconciliation failure propagates
and nothing is inserted. -/
def eye_make_tuples (eye_time : List ℚ) (no_frames : ℕ) :
    Except String (List (List ℚ × ℕ)) :=
  match reconcile_frame_counts eye_time no_frames with
  | .error e => .error e
  | .ok (t, n) => .ok [(t, n)]

/-- C9 (confirmed): on a frame-count mismatch, timestamps are truncated to
the video frame count exactly when there are more timestamps than video
frames and both counts are nonzero; every other mismatch raises the
reconciliation error and inserts no record. -/
theorem eye_frame_count_reconciliation (eye_time : List ℚ) (no_frames : ℕ)
    (hmis : eye_time.length ≠ no_frames) :
    (eye_time.length > no_frames ∧ eye_time.length ≠ 0 ∧ no_frames ≠ 0 →
      reconcile_frame_counts eye_time no_frames =
        .ok (eye_time.take no_frames, no_frames)
      ∧ eye_make_tuples eye_time no_frames =
          .ok [(eye_time.take no_frames, no_frames)])
    ∧ (¬(eye_time.length > no_frames ∧ eye_time.length ≠ 0 ∧ no_frames ≠ 0) →
      reconcile_frame_counts eye_time no_frames =
        .error "Can not reconcile frame count"
      ∧ eye_make_tuples eye_time no_frames =
          .error "Can not reconcile frame count") := by
  constructor
  · intro hok
    have h1 : reconcile_frame_counts eye_time no_frames =
        .ok (eye_time.take no_frames, no_frames) := by
      unfold reconcile_frame_counts
      rw [if_pos hmis, if_pos hok]
    exact ⟨h1, by unfold eye_make_tuples; rw [h1]⟩
  · intro hbad
    have h1 : reconcile_frame_counts eye_time no_frames =
        .error "Can not reconcile frame count" := by
      unfold reconcile_frame_counts
      rw [if_pos hmis, if_neg hbad]
    exact ⟨h1, by unfold eye_make_tuples; rw [h1]⟩

/-- Witness for C9: three timestamps against two video frames truncate; two
timestamps against three video frames fail. -/
theorem eye_frame_count_reconciliation_witness :
    reconcile_frame_counts [0, 1, 2] 2 = .ok ([0, 1], 2)
    ∧ reconcile_frame_counts [0, 1] 3 = .error "Can not reconcile frame count" :=
  ⟨((eye_frame_count_reconciliation [0, 1, 2] 2 (by decide)).1 (by decide)).1,
   ((eye_frame_count_reconciliation [0, 1] 3 (by decide)).2 (by decide)).1⟩

/-- Trace-id assignment of `ExtractRaw._make_tuples` for one channel.
`counts` lists, slice by slice (in slice order), the number of components
the CNMF call discovered (`final_num_components`); `num` is the running
`num_traces_until_now` accumulator.  For each slice, component `i` gets
`trace_id = num_traces_until_now + i + 1`, and the accumulator then grows
by that slice's component count. -/
def assignTraceIds (num : ℕ) : List ℕ → List (List ℕ)
  | [] => []
  | n :: rest => ((List.range n).map fun i => num + i + 1) :: assignTraceIds (num + n) rest

/-- Per-channel trace ids: `num_traces_until_now = 0` at the top of the
channel loop. -/
def channel_trace_ids (component_counts : List ℕ) : List (List ℕ) :=
  assignTraceIds 0 component_counts

/-- All trace ids of one extraction run: the channel loop is outer and each
channel restarts the accumulator at zero. -/
def extract_raw_trace_ids (counts_per_channel : List (List ℕ)) :
    List (List (List ℕ)) :=
  counts_per_channel.map channel_trace_ids

lemma assignTraceIds_join (num : ℕ) (counts : List ℕ) :
    (assignTraceIds num counts).flatten = List.range' (num + 1) counts.sum := by
  induction counts generalizing num with
  | nil => simp [assignTraceIds]
  | cons n rest ih =>
    rw [assignTraceIds]
    rw [List.flatten_cons, ih, List.sum_cons]
    have hmap : (List.range n).map (fun i => num + i + 1) =
        List.range' (num + 1) n := by
      rw [List.range'_eq_map_range]
      apply List.map_congr_left
      intro a _
      omega
    rw [hmap, (by omega : num + n + 1 = num + 1 + 1 * n),
      (by omega : n + rest.sum = rest.sum + n)]
    exact List.range'_append (num + 1) n rest.sum 1

lemma assignTraceIds_get (counts : List ℕ) (num k : ℕ)
    (hk : k < counts.length) :
    (assignTraceIds num counts).get? k =
      some ((List.range (counts.get ⟨k, hk⟩)).map
        fun i => num + (counts.take k).sum + i + 1) := by
  induction counts generalizing num k with
  | nil => simp at hk
  | cons n rest ih =>
    cases k with
    | zero => simp [assignTraceIds]
    | succ k =>
      rw [assignTraceIds]
      have hk2 : k < rest.length := by simpa using hk
      rw [List.get?_cons_succ, ih (num + n) k hk2]
      simp only [List.get_cons_succ, List.take_succ_cons, List.sum_cons]
      congr 1
      apply List.map_congr_left
      intro a _
      omega

/-- C1 (confirmed): component `i` of slice `k` in channel `c` gets
`trace_id = (running count of traces already produced for this channel)
+ i + 1`; the running count is the total over the earlier slices of the
same channel, each channel's ids are computed from that channel's counts
alone starting again at 1, and within one channel the assigned ids are
exactly `1, …, total`, strictly increasing and without duplicates. -/
theorem trace_id_assignment (counts_per_channel : List (List ℕ)) (c : ℕ)
    (hc : c < counts_per_channel.length) :
    (extract_raw_trace_ids counts_per_channel).get? c =
      some (channel_trace_ids (counts_per_channel.get ⟨c, hc⟩))
    ∧ (∀ (k : ℕ) (hk : k < (counts_per_channel.get ⟨c, hc⟩).length),
        (channel_trace_ids (counts_per_channel.get ⟨c, hc⟩)).get? k =
          some ((List.range ((counts_per_channel.get ⟨c, hc⟩).get ⟨k, hk⟩)).map
            fun i => ((counts_per_channel.get ⟨c, hc⟩).take k).sum + i + 1))
    ∧ (channel_trace_ids (counts_per_channel.get ⟨c, hc⟩)).flatten =
        List.range' 1 (counts_per_channel.get ⟨c, hc⟩).sum
    ∧ List.Pairwise (· < ·)
        (channel_trace_ids (counts_per_channel.get ⟨c, hc⟩)).flatten
    ∧ List.Nodup (channel_trace_ids (counts_per_channel.get ⟨c, hc⟩)).flatten := by
  set cnts := counts_per_channel.get ⟨c, hc⟩ with hcnts
  refine ⟨?_, ?_, ?_, ?_, ?_⟩
  · rw [extract_raw_trace_ids, List.get?_map, List.get?_eq_get hc, hcnts]
    rfl
  · intro k hk
    rw [channel_trace_ids, assignTraceIds_get cnts 0 k hk]
    congr 1
    apply List.map_congr_left
    intro a _
    omega
  · rw [channel_trace_ids, assignTraceIds_join]
  · rw [channel_trace_ids, assignTraceIds_join]
    exact List.pairwise_lt_range' 1 cnts.sum
  · rw [channel_trace_ids, assignTraceIds_join]
    exact List.nodup_range' _ _

/-- Witness for C1, the spec's own example: channel counts `[3, 2]` give ids
`[1,2,3]` and `[4,5]`; a second channel with counts `[1]` restarts at 1. -/
theorem trace_id_assignment_witness :
    (extract_raw_trace_ids [[3, 2], [1]]).get? 0 = some [[1, 2, 3], [4, 5]]
    ∧ (extract_raw_trace_ids [[3, 2], [1]]).get? 1 = some [[1]] := by
  have h0 := (trace_id_assignment [[3, 2], [1]] 0 (by decide)).1
  have h1 := (trace_id_assignment [[3, 2], [1]] 1 (by decide)).1
  exact ⟨h0.trans (by decide), h1.trans (by decide)⟩

/-- numpy `np.interp` over (sample position, sample value) pairs with
increasing positions: queries left of the first sample clamp to the first
value, queries right of the last clamp to the last value, and queries in
between interpolate linearly on the enclosing segment.  numpy rejects an
empty sample list; `fill_nans` never passes one, and the model returns 0
there. -/
def npInterp (q : ℚ) : List (ℚ × ℚ) → ℚ
  | [] => 0
  | [(_, f0)] => f0
  | (x0, f0) :: (x1, f1) :: ps =>
    if q ≤ x0 then f0
    else if q ≤ x1 then f0 + (f1 - f0) * (q - x0) / (x1 - x0)
    else npInterp q ((x1, f1) :: ps)

/-- The (0-based index, value) pairs at which a NaN-able trace is defined,
in ascending index order starting at `pos`:
`(~nans).nonzero()[0]` zipped with `x[~nans]`. -/
def definedFrom : List (Option ℚ) → ℕ → List (ℕ × ℚ)
  | [], _ => []
  | none :: tl, pos => definedFrom tl (pos + 1)
  | some a :: tl, pos => (pos, a) :: definedFrom tl (pos + 1)

def definedPairs (x : List (Option ℚ)) : List (ℕ × ℚ) :=
  definedFrom x 0

/-- Model of `fill_nans` from `preprocess.py`: with `nans = np.isnan(x)`, NaN
positions are overwritten with 0 when `nans.all()` and otherwise with
`np.interp(nans.nonzero()[0], (~nans).nonzero()[0], x[~nans])`; defined
positions keep their value. -/
def fill_nans (x : List (Option ℚ)) : List ℚ :=
  if x.all (fun v => v.isNone) then List.replicate x.length 0
  else x.enum.map fun p =>
    match p.2 with
    | some a => a
    | none => npInterp (p.1 : ℚ) ((definedPairs x).map fun d => ((d.1 : ℚ), d.2))

/-- The last pair of the list whose position is strictly below `q`. -/
def lastBelow (q : ℕ) : List (ℕ × ℚ) → Option (ℕ × ℚ)
  | [] => none
  | p :: tl =>
    match lastBelow q tl with
    | some r => some r
    | none => if p.1 < q then some p else none

/-- The first pair of the list whose position is strictly above `q`. -/
def firstAbove (q : ℕ) : List (ℕ × ℚ) → Option (ℕ × ℚ)
  | [] => none
  | p :: tl => if q < p.1 then some p else firstAbove q tl

/-- Value from the two nearest neighbors, as the spec words it: linear
interpolation between them, or the single available neighbor's value. -/
def clampInterp (q : ℚ) : Option (ℕ × ℚ) → Option (ℕ × ℚ) → ℚ
  | some (l, vl), some (r, vr) =>
      vl + (vr - vl) * (q - (l : ℚ)) / ((r : ℚ) - (l : ℚ))
  | none, some (_, vr) => vr
  | some (_, vl), none => vl
  | none, none => 0

/-- The nearest defined sample strictly left of position `i`. -/
def nearestLeft (x : List (Option ℚ)) (i : ℕ) : Option (ℕ × ℚ) :=
  lastBelow i (definedPairs x)

/-- The nearest defined sample strictly right of position `i`. -/
def nearestRight (x : List (Option ℚ)) (i : ℕ) : Option (ℕ × ℚ) :=
  firstAbove i (definedPairs x)

/-- Spec-side value of `fill_nans` at an undefined position: linear
interpolation between the nearest defined neighbors. -/
def interpNearest (x : List (Option ℚ)) (i : ℕ) : ℚ :=
  clampInterp (i : ℚ) (nearestLeft x i) (nearestRight x i)

lemma lastBelow_eq_none (q : ℕ) (ps : List (ℕ × ℚ))
    (h : ∀ p ∈ ps, q < p.1) : lastBelow q ps = none := by
  induction ps with
  | nil => rfl
  | cons p tl ih =>
    rw [lastBelow, ih fun r hr => h r (List.mem_cons_of_mem p hr)]
    have : ¬p.1 < q := by have := h p (List.mem_cons_self p tl); omega
    simp [this]

lemma lastBelow_cons_of_isSome (q : ℕ) (p0 : ℕ × ℚ) (tl : List (ℕ × ℚ))
    (h : (lastBelow q tl).isSome) :
    lastBelow q (p0 :: tl) = lastBelow q tl := by
  rw [lastBelow]
  cases htl : lastBelow q tl with
  | none => rw [htl] at h; simp at h
  | some r => rfl

lemma lastBelow_isSome_head (q : ℕ) (p0 : ℕ × ℚ) (tl : List (ℕ × ℚ))
    (h : p0.1 < q) : (lastBelow q (p0 :: tl)).isSome := by
  rw [lastBelow]
  cases htl : lastBelow q tl with
  | none => simp [h]
  | some r => rfl

/-- On a position-sorted sample list that avoids the query position,
`np.interp` computes exactly the nearest-neighbor clamp/interpolation. -/
lemma npInterp_clamp (ps : List (ℕ × ℚ)) (q : ℕ)
    (hs : ps.Pairwise fun p r => p.1 < r.1)
    (hq : ∀ p ∈ ps, p.1 ≠ q) :
    npInterp (q : ℚ) (ps.map fun d => ((d.1 : ℚ), d.2)) =
      clampInterp (q : ℚ) (lastBelow q ps) (firstAbove q ps) := by
  induction ps with
  | nil => rfl
  | cons p0 tl ih =>
    cases tl with
    | nil =>
      rcases lt_or_gt_of_ne (hq p0 (List.mem_cons_self _ _)) with hlt | hgt
      · have h1 : lastBelow q [p0] = some p0 := by
          simp [lastBelow, hlt]
        have h2 : firstAbove q [p0] = none := by
          have hn : ¬q < p0.1 := by omega
          simp [firstAbove, hn]
        rw [h1, h2]
        rfl
      · have h1 : lastBelow q [p0] = none :=
          lastBelow_eq_none q [p0] (by intro p hp; simp at hp; subst hp; omega)
        have h2 : firstAbove q [p0] = some p0 := by
          simp [firstAbove, hgt]
        rw [h1, h2]
        rfl
    | cons p1 tl =>
      have h01 : p0.1 < p1.1 := (List.pairwise_cons.1 hs).1 p1 (List.mem_cons_self _ _)
      have hs1 : (p1 :: tl).Pairwise fun p r => p.1 < r.1 :=
        (List.pairwise_cons.1 hs).2
      have htl_gt : ∀ p ∈ p1 :: tl, p1.1 ≤ p.1 := by
        intro p hp
        rcases List.mem_cons.1 hp with h | h
        · subst h; exact le_refl _
        · exact le_of_lt ((List.pairwise_cons.1 hs1).1 p h)
      rcases lt_or_gt_of_ne (hq p0 (List.mem_cons_self _ _)) with h0 | h0
      · -- p0.1 < q
        rcases lt_or_gt_of_ne (hq p1 (List.mem_cons_of_mem _ (List.mem_cons_self _ _))) with h1 | h1
        · -- p1.1 < q as well: recurse past p0
          have hLHS : npInterp (q : ℚ) ((p0 :: p1 :: tl).map fun d => ((d.1 : ℚ), d.2)) =
              npInterp (q : ℚ) ((p1 :: tl).map fun d => ((d.1 : ℚ), d.2)) := by
            rw [List.map_cons, List.map_cons, npInterp]
            have c0 : ¬(q : ℚ) ≤ (p0.1 : ℚ) := by
              rw [not_le]
              exact_mod_cast h0
            have c1 : ¬(q : ℚ) ≤ (p1.1 : ℚ) := by
              rw [not_le]
              exact_mod_cast h1
            rw [if_neg c0, if_neg c1]
          rw [hLHS, ih hs1 fun p hp => hq p (List.mem_cons_of_mem _ hp)]
          congr 1
          · exact (lastBelow_cons_of_isSome q p0 (p1 :: tl)
              (lastBelow_isSome_head q p1 tl h1)).symm
          · have hn : ¬q < p0.1 := by omega
            simp [firstAbove, hn]
        · -- p0.1 < q < p1.1: the enclosing segment
          have hLast : lastBelow q (p0 :: p1 :: tl) = some p0 := by
            have hnone : lastBelow q (p1 :: tl) = none := by
              apply lastBelow_eq_none
              intro p hp
              have := htl_gt p hp
              omega
            rw [lastBelow, hnone]
            simp [h0]
          have hFirst : firstAbove q (p0 :: p1 :: tl) = some p1 := by
            rw [firstAbove]
            have : ¬q < p0.1 := by omega
            rw [if_neg this, firstAbove, if_pos h1]
          rw [hLast, hFirst]
          rw [List.map_cons, List.map_cons, npInterp]
          have c0 : ¬(q : ℚ) ≤ (p0.1 : ℚ) := by
            rw [not_le]
            exact_mod_cast h0
          have c1 : (q : ℚ) ≤ (p1.1 : ℚ) := by exact_mod_cast le_of_lt h1
          rw [if_neg c0, if_pos c1]
          rfl
      · -- q < p0.1: clamp to the first sample
        have hLast : lastBelow q (p0 :: p1 :: tl) = none := by
          apply lastBelow_eq_none
          intro p hp
          rcases List.mem_cons.1 hp with h | h
          · subst h; omega
          · have := htl_gt p h
            omega
        have hFirst : firstAbove q (p0 :: p1 :: tl) = some p0 := by
          rw [firstAbove, if_pos h0]
        rw [hLast, hFirst]
        rw [List.map_cons, List.map_cons, npInterp]
        have c0 : (q : ℚ) ≤ (p0.1 : ℚ) := by exact_mod_cast le_of_lt h0
        rw [if_pos c0]
        rfl

lemma definedFrom_ge (x : List (Option ℚ)) (pos : ℕ) :
    ∀ p ∈ definedFrom x pos, pos ≤ p.1 := by
  induction x generalizing pos with
  | nil => intro p hp; simp [definedFrom] at hp
  | cons v tl ih =>
    intro p hp
    cases v with
    | none =>
      rw [definedFrom] at hp
      have := ih (pos + 1) p hp
      omega
    | some a =>
      rw [definedFrom] at hp
      rcases List.mem_cons.1 hp with h | h
      · subst h; exact le_refl _
      · have := ih (pos + 1) p h
        omega

lemma definedFrom_sorted (x : List (Option ℚ)) (pos : ℕ) :
    (definedFrom x pos).Pairwise fun p r => p.1 < r.1 := by
  induction x generalizing pos with
  | nil => exact List.Pairwise.nil
  | cons v tl ih =>
    cases v with
    | none => rw [definedFrom]; exact ih (pos + 1)
    | some a =>
      rw [definedFrom]
      refine List.pairwise_cons.2 ⟨?_, ih (pos + 1)⟩
      intro p hp
      have := definedFrom_ge tl (pos + 1) p hp
      omega

lemma definedFrom_mem_get (x : List (Option ℚ)) (pos : ℕ) (j : ℕ) (a : ℚ)
    (h : (j, a) ∈ definedFrom x pos) : x.get? (j - pos) = some (some a) ∧ pos ≤ j := by
  induction x generalizing pos with
  | nil => simp [definedFrom] at h
  | cons v tl ih =>
    cases v with
    | none =>
      rw [definedFrom] at h
      obtain ⟨hget, hle⟩ := ih (pos + 1) h
      have hlt : pos < j := by
        have := definedFrom_ge tl (pos + 1) (j, a) h
        omega
      refine ⟨?_, le_of_lt hlt⟩
      have : j - pos = (j - (pos + 1)) + 1 := by omega
      rw [this, List.get?_cons_succ]
      exact hget
    | some b =>
      rw [definedFrom] at h
      rcases List.mem_cons.1 h with h | h
      · have h1 : j = pos := congrArg Prod.fst h
        have h2 : a = b := congrArg Prod.snd h
        subst h1
        subst h2
        simp
      · obtain ⟨hget, hle⟩ := ih (pos + 1) h
        have hlt : pos < j := by omega
        refine ⟨?_, le_of_lt hlt⟩
        have : j - pos = (j - (pos + 1)) + 1 := by omega
        rw [this, List.get?_cons_succ]
        exact hget

lemma definedPairs_ne_of_none (x : List (Option ℚ)) (i : ℕ)
    (hx : x.get? i = some none) : ∀ p ∈ definedPairs x, p.1 ≠ i := by
  intro p hp hcontra
  obtain ⟨hget, _⟩ := definedFrom_mem_get x 0 p.1 p.2 (by simpa using hp)
  rw [Nat.sub_zero, hcontra, hx] at hget
  simp at hget

/-- C5 (confirmed): a fully-undefined trace becomes all zeros; a trace with
at least one defined value keeps every defined value unchanged and fills
every undefined position with the linear interpolation between its nearest
defined neighbors (the single available neighbor's value at the edges). -/
theorem fill_nans_spec (x : List (Option ℚ)) :
    ((∀ v ∈ x, v = none) → fill_nans x = List.replicate x.length 0)
    ∧ ((∃ v ∈ x, v ≠ none) →
        (fill_nans x).length = x.length
        ∧ (∀ i a, x.get? i = some (some a) → (fill_nans x).get? i = some a)
        ∧ (∀ i, x.get? i = some none →
            (fill_nans x).get? i = some (interpNearest x i))) := by
  constructor
  · intro hall
    rw [fill_nans, if_pos]
    rw [List.all_eq_true]
    intro v hv
    rw [hall v hv]
    rfl
  · intro hsome
    have hcond : ¬x.all (fun v => v.isNone) = true := by
      rw [List.all_eq_true]
      push_neg
      obtain ⟨v, hv, hne⟩ := hsome
      exact ⟨v, hv, by cases v <;> simp_all⟩
    have hfill : fill_nans x = x.enum.map fun p =>
        match p.2 with
        | some a => a
        | none => npInterp (p.1 : ℚ) ((definedPairs x).map fun d => ((d.1 : ℚ), d.2)) := by
      rw [fill_nans, if_neg hcond]
    refine ⟨?_, ?_, ?_⟩
    · rw [hfill, List.length_map, List.enum_length]
    · intro i a hget
      rw [hfill, List.get?_map, List.get?_enum, hget]
      rfl
    · intro i hget
      rw [hfill, List.get?_map, List.get?_enum, hget]
      have := npInterp_clamp (definedPairs x) i
        (definedFrom_sorted x 0) (definedPairs_ne_of_none x i hget)
      simp only [Option.map_some']
      rw [this]
      rfl

/-- Witness for C5: `[NaN, NaN]` fills with zeros; in `[NaN, 1, NaN, 3, NaN]`
the defined values stay, the interior NaN becomes the midpoint 2, and the
edge NaNs clamp to their single neighbor. -/
theorem fill_nans_spec_witness :
    fill_nans [none, none] = [0, 0]
    ∧ (fill_nans [none, some 1, none, some 3, none]).get? 1 = some 1
    ∧ (fill_nans [none, some 1, none, some 3, none]).get? 2 =
        some (interpNearest [none, some 1, none, some 3, none] 2)
    ∧ (fill_nans [none, some 1, none, some 3, none]).get? 0 =
        some (interpNearest [none, some 1, none, some 3, none] 0) := by
  refine ⟨?_, ?_, ?_, ?_⟩
  · exact ((fill_nans_spec [none, none]).1 (by decide)).trans (by decide)
  · exact ((fill_nans_spec [none, some 1, none, some 3, none]).2
      (by exact ⟨some 1, by decide, by decide⟩)).2.1 1 1 (by decide)
  · exact ((fill_nans_spec [none, some 1, none, some 3, none]).2
      (by exact ⟨some 1, by decide, by decide⟩)).2.2 2 (by decide)
  · exact ((fill_nans_spec [none, some 1, none, some 3, none]).2
      (by exact ⟨some 1, by decide, by decide⟩)).2.2 0 (by decide)

/-- A record inserted by `Spikes._make_tuples`: the master `Spikes` row or
one `Spikes.RateTrace` row. -/
inductive SpikesInsert
  | master (key : ℕ)
  | rateTrace (trace_id : ℕ) (rate_trace : List ℚ)
  deriving DecidableEq

/-- Model of `Spikes._make_tuples`: dispatch on `spike_method_name`.  The inference
backends are external libraries (`c2s` for "stm", `pyfnnd.deconvolve` for
"oopsi"), modelled as the parameters `stm_backend` and `oopsi_backend`
applied to the gap-filled trace; the "nmf" branch passes through the spike
traces already produced by extraction (and inserts nothing when there are
none).  Any other method name raises
`NotImplementedError('Method {spike_method} not implemented.')` before any
insert. -/
def spikes_make_tuples (method : String) (key : ℕ)
    (traces : List (ℕ × List (Option ℚ)))
    (spike_rates : List (ℕ × List ℚ))
    (stm_backend oopsi_backend : List ℚ → List ℚ) :
    Except String (List SpikesInsert) :=
  if method = "stm" then
    .ok (.master key ::
      traces.map fun p => .rateTrace p.1 (stm_backend (fill_nans p.2)))
  else if method = "nmf" then
    if spike_rates.isEmpty then .ok []
    else .ok (.master key :: spike_rates.map fun p => .rateTrace p.1 p.2)
  else if method = "oopsi" then
    .ok (.master key ::
      traces.map fun p => .rateTrace p.1 (oopsi_backend (fill_nans p.2)))
  else .error ("Method " ++ toString key ++ " not implemented.")

/-- C8 (confirmed): a method name outside the closed set
`{"stm", "nmf", "oopsi"}` makes the dispatcher fail with the
"not implemented" error, and no insert list is produced. -/
theorem spikes_unknown_method (method : String) (key : ℕ)
    (traces : List (ℕ × List (Option ℚ))) (spike_rates : List (ℕ × List ℚ))
    (stm_backend oopsi_backend : List ℚ → List ℚ)
    (h1 : method ≠ "stm") (h2 : method ≠ "nmf") (h3 : method ≠ "oopsi") :
    spikes_make_tuples method key traces spike_rates stm_backend oopsi_backend =
      .error ("Method " ++ toString key ++ " not implemented.")
    ∧ ∀ inserts,
        spikes_make_tuples method key traces spike_rates stm_backend oopsi_backend ≠
          .ok inserts := by
  have herr : spikes_make_tuples method key traces spike_rates stm_backend oopsi_backend =
      .error ("Method " ++ toString key ++ " not implemented.") := by
    unfold spikes_make_tuples
    rw [if_neg h1, if_neg h2, if_neg h3]
  exact ⟨herr, fun inserts hok => by rw [herr] at hok; exact Except.noConfusion hok⟩

/-- Witness for C8: the method name "bogus" errors out with no inserts. -/
theorem spikes_unknown_method_witness :
    spikes_make_tuples "bogus" 5 [] [] id id =
      .error ("Method " ++ toString 5 ++ " not implemented.") :=
  (spikes_unknown_method "bogus" 5 [] [] id id
    (by decide) (by decide) (by decide)).1

/-- Slope of `scipy.stats.linregress(x, y)`: the ordinary least-squares
slope of `y` regressed on `x`,
`(n·Σxy − Σx·Σy) / (n·Σx² − (Σx)²)`. -/
def linregress_slope (xs ys : List ℚ) : ℚ :=
  let n : ℚ := xs.length
  let sx := xs.sum
  let sy := ys.sum
  let sxx := (xs.map fun a => a * a).sum
  let sxy := ((xs.zip ys).map fun p => p.1 * p.2).sum
  (n * sxy - sx * sy) / (n * sxx - sx * sx)

/-- The sign fix of `estimate_twitch_ratio`:
`slope = -1 if slope >= 0 else slope`. -/
def clamp_slope (s : ℚ) : ℚ := if 0 ≤ s then -1 else s

/-- The band-pass of `estimate_twitch_ratio`:
`mirrconv(x - mirrconv(x, hh), hl)` — subtract a wide Hamming low-pass
(unsharp masking at ~0.03× the sampling rate) and then apply a narrow
Hamming low-pass (denoising at ~⅛× the sampling rate).  The two
mirror-boundary Hamming convolutions (`scipy.signal.hamming`,
`utils.dsp.mirrconv`) have transcendental coefficients and enter the model
as the abstract low-pass parameters. -/
def band_pass (lowpass_wide lowpass_narrow : List ℚ → List ℚ)
    (t : List ℚ) : List ℚ :=
  lowpass_narrow ((t.zip (lowpass_wide t)).map fun p => p.1 - p.2)

/-- Model of `ComputeTraces.estimate_twitch_ratio`: band-pass both channel traces,
fit `stats.linregress(x, y)`, force the slope negative, and return
`df2 / df1 / slope`. -/
def estimate_twitch_ratio (lowpass_wide lowpass_narrow : List ℚ → List ℚ)
    (x y : List ℚ) (df1 df2 : ℚ) : ℚ :=
  let xf := band_pass lowpass_wide lowpass_narrow x
  let yf := band_pass lowpass_wide lowpass_narrow y
  df2 / df1 / clamp_slope (linregress_slope xf yf)

/-- C4 (confirmed): for every input pair the slope actually used is
negative; a non-negative fitted slope is replaced by −1 and the returned
ratio is `df2 / df1 / (−1)`, a negative fitted slope is kept and the ratio
is `df2 / df1 / slope`; in both cases a value is returned (processing
continues, no exception). -/
theorem estimate_twitch_ratio_clamps
    (lowpass_wide lowpass_narrow : List ℚ → List ℚ)
    (x y : List ℚ) (df1 df2 : ℚ) :
    clamp_slope (linregress_slope (band_pass lowpass_wide lowpass_narrow x)
        (band_pass lowpass_wide lowpass_narrow y)) < 0
    ∧ (0 ≤ linregress_slope (band_pass lowpass_wide lowpass_narrow x)
          (band_pass lowpass_wide lowpass_narrow y) →
        estimate_twitch_ratio lowpass_wide lowpass_narrow x y df1 df2 =
          df2 / df1 / (-1))
    ∧ (linregress_slope (band_pass lowpass_wide lowpass_narrow x)
          (band_pass lowpass_wide lowpass_narrow y) < 0 →
        estimate_twitch_ratio lowpass_wide lowpass_narrow x y df1 df2 =
          df2 / df1 / linregress_slope (band_pass lowpass_wide lowpass_narrow x)
            (band_pass lowpass_wide lowpass_narrow y)) := by
  refine ⟨?_, ?_, ?_⟩
  · unfold clamp_slope
    split_ifs with h
    · norm_num
    · exact lt_of_not_ge h
  · intro h
    simp only [estimate_twitch_ratio, clamp_slope]
    rw [if_pos h]
  · intro h
    simp only [estimate_twitch_ratio, clamp_slope]
    rw [if_neg (not_le.2 h)]

/-- Witness for C4: with identity filters and empty traces the fitted
slope is 0 (degenerate), so the clamp applies and the ratio is
`df2 / df1 / (−1)`. -/
theorem estimate_twitch_ratio_clamps_witness :
    estimate_twitch_ratio (fun t => t) (fun t => t) [] [] 1 3 =
      3 / 1 / (-1) :=
  (estimate_twitch_ratio_clamps (fun t => t) (fun t => t) [] [] 1 3).2.1
    (by simp [linregress_slope, band_pass])

/-- notnan for increment 1, scan body: `pos` is the index of the head of
the remaining suffix.  The loop
`while np.isnan(x[start]) and 0 <= start < len(x): start += 1` evaluates
`np.isnan(x[start])` before the bounds check, so when the suffix runs out
the next read is out of bounds — `Except.error` carries the offending
index. -/
def notnanFAux : List (Option ℚ) → ℕ → Except ℕ ℕ
  | [], pos => .error pos
  | some _ :: _, pos => .ok pos
  | none :: tl, pos => notnanFAux tl (pos + 1)

/-- Model of `notnan(x, start, 1)`, the forward scan of `preprocess.py`. -/
def notnanF (x : List (Option ℚ)) (start : ℕ) : Except ℕ ℕ :=
  notnanFAux (x.drop start) start

/-- A numpy 1-D read at a possibly negative index: indices in
`[-len(x), len(x))` are valid, negative ones wrap to the end of the
array; anything else is an `IndexError`. -/
def npRead (x : List (Option ℚ)) (i : ℤ) : Except ℤ (Option ℚ) :=
  if 0 ≤ i ∧ i < (x.length : ℤ) then .ok (x.getD i.toNat none)
  else if -(x.length : ℤ) ≤ i ∧ i < 0 then .ok (x.getD (i + x.length).toNat none)
  else .error i

/-- notnan for increment -1, scan body over a non-negative current index.
At index 0 with a NaN entry the loop steps to `start = -1`, reads `x[-1]`
(a valid wrapped read on a nonempty array — necessarily NaN here, since the
scan came down from the end), fails the `0 <= start` bounds check and
returns `-1`; a read at an index at or beyond `len(x)` is an
`IndexError`. -/
def notnanBAux (x : List (Option ℚ)) : ℕ → Except ℤ ℤ
  | 0 =>
    if 0 < x.length then
      match x.getD 0 none with
      | some _ => .ok 0
      | none => .ok (-1)
    else .error 0
  | s + 1 =>
    if s + 1 < x.length then
      match x.getD (s + 1) none with
      | some _ => .ok (s + 1)
      | none => notnanBAux x s
    else .error ((s : ℤ) + 1)

/-- Model of `notnan(x, start, -1)`, the backward scan.  A negative `start` fails
the loop's `0 <= start` bounds check right after the first read, so the
scan returns `start` if that read is valid (numpy wraps indices down to
`-len(x)`) and raises otherwise. -/
def notnanB (x : List (Option ℚ)) (start : ℤ) : Except ℤ ℤ :=
  if 0 ≤ start then notnanBAux x start.toNat
  else
    match npRead x start with
    | .error i => .error i
    | .ok _ => .ok start

lemma notnanFAux_all_none (l : List (Option ℚ)) (hall : ∀ v ∈ l, v = none) :
    ∀ pos, notnanFAux l pos = .error (pos + l.length) := by
  induction l with
  | nil => intro pos; simp [notnanFAux]
  | cons v tl ih =>
    intro pos
    have hv : v = none := hall v (List.mem_cons_self _ _)
    subst hv
    rw [notnanFAux, ih fun w hw => hall w (List.mem_cons_of_mem _ hw)]
    congr 1
    simp
    omega

lemma notnanFAux_ok (l : List (Option ℚ)) :
    ∀ pos i, notnanFAux l pos = .ok i →
      pos ≤ i ∧ ∃ a, l.get? (i - pos) = some (some a) := by
  induction l with
  | nil => intro pos i h; exact absurd h (by simp [notnanFAux])
  | cons v tl ih =>
    intro pos i h
    cases v with
    | some a =>
      rw [notnanFAux] at h
      have hi : i = pos := (Except.ok.inj h).symm
      subst hi
      exact ⟨le_refl _, a, by simp⟩
    | none =>
      rw [notnanFAux] at h
      obtain ⟨hle, a, hget⟩ := ih (pos + 1) i h
      refine ⟨by omega, a, ?_⟩
      have : i - pos = (i - (pos + 1)) + 1 := by omega
      rw [this, List.get?_cons_succ]
      exact hget

/-- C10 (confirmed): on an all-NaN array the forward scan `notnan(x, 0, 1)`
reads index `len(x)`, out of bounds; and whenever the forward scan does
return normally, the returned index is in range and the entry there is
non-NaN, so the scan returns an in-range index only when some entry in the
scan direction is defined. -/
theorem notnan_forward_out_of_bounds (x : List (Option ℚ)) :
    ((∀ v ∈ x, v = none) → notnanF x 0 = .error x.length)
    ∧ (∀ s i, notnanF x s = .ok i →
        i < x.length ∧ ∃ a, x.get? i = some (some a)) := by
  constructor
  · intro hall
    rw [notnanF, List.drop_zero, notnanFAux_all_none x hall 0, Nat.zero_add]
  · intro s i hok
    rw [notnanF] at hok
    obtain ⟨hle, a, hget⟩ := notnanFAux_ok (x.drop s) s i hok
    rw [List.get?_drop] at hget
    have hi : s + (i - s) = i := by omega
    rw [hi] at hget
    obtain ⟨hlt, -⟩ := List.get?_eq_some.1 hget
    exact ⟨hlt, a, hget⟩

/-- Witness for C10: the all-NaN pair `[NaN, NaN]` makes the forward scan
read index 2 = len(x), and on `[NaN, 7]` the scan returns index 1, in
range and defined. -/
theorem notnan_forward_out_of_bounds_witness :
    notnanF [none, none] 0 = .error 2
    ∧ (1 < 2 ∧ ∃ a, [none, some (7 : ℚ)].get? 1 = some (some a)) := by
  constructor
  · exact (notnan_forward_out_of_bounds [none, none]).1 (by simp)
  · exact (notnan_forward_out_of_bounds [none, some 7]).2 0 1 rfl

/-- Elementwise product of two NaN-able traces (`gt * bt`): NaN
propagates. -/
def optMul (a b : Option ℚ) : Option ℚ :=
  match a, b with
  | some a, some b => some (a * b)
  | _, _ => none

/-- One Twitch2B computed trace of `ComputeTraces._make_tuples`:
`start = notnan(gt * bt)`, `end = notnan(gt * bt, len(gt) - 1, -1)`, then
`x = np.zeros_like(gt) * np.NaN` and `x[start:end]` — end exclusive — is
assigned the closed-form unmixing of `r = (gt - bt) / (gt + bt)`.  The
scale ratio `gamma` (`estimate_twitch_ratio` on the trimmed window) enters
as a parameter, as do the emission integrals `g_free`, `b_free`, `dg`,
`db`; an out-of-bounds `notnan` read propagates as the error. -/
def twitch_trace (g_free b_free dg db gamma : ℚ) (gt bt : List (Option ℚ)) :
    Except ℤ (List (Option ℚ)) :=
  match notnanF (List.zipWith optMul gt bt) 0 with
  | .error i => .error (i : ℤ)
  | .ok start =>
    match notnanB (List.zipWith optMul gt bt) ((gt.length : ℤ) - 1) with
    | .error i => .error i
    | .ok stop =>
      .ok ((List.range gt.length).map fun (i : ℕ) =>
        if (start : ℤ) ≤ (i : ℤ) ∧ (i : ℤ) < stop then
          match gt.getD i none, bt.getD i none with
          | some g, some b =>
            some ((-b_free + g_free * gamma -
                    ((g - b) / (g + b)) * (b_free + g_free * gamma)) /
                  (db - dg * gamma + ((g - b) / (g + b)) * (db + dg * gamma)))
          | _, _ => none
        else none)

/-- C3 (code bug): on the all-defined pair `gt = bt = [1, 1, 1]` the
product is defined at every index, the backward scan finds last defined
index 2, yet the computed trace is NaN at index 2 because the assignment
`x[start:end]` excludes `end` — the last index at which the product is
defined is left undefined, contradicting the claimed inclusive window
(the parallel trimming in `SpikeMethod.spike_traces` uses `end + 1`). -/
theorem twitch_trace_drops_last_defined :
    twitch_trace 1 1 1 1 (-1) [some 1, some 1, some 1] [some 1, some 1, some 1] =
      .ok [some (-1), some (-1), none]
    ∧ notnanB (List.zipWith optMul [some 1, some 1, some 1]
        [some (1 : ℚ), some 1, some 1]) 2 = .ok 2
    ∧ (List.zipWith optMul [some 1, some 1, some 1]
        [some (1 : ℚ), some 1, some 1]).getD 2 none = some 1 := by
  refine ⟨?_, ?_, ?_⟩
  · simp only [twitch_trace, List.zipWith, optMul, notnanF, notnanFAux,
      List.drop_zero, List.length_cons, List.length_nil, notnanB, notnanBAux,
      List.getD, List.range, List.range.loop, List.map]
    norm_num [notnanBAux, List.getD]
  · norm_num [notnanB, notnanBAux, optMul, List.getD]
  · norm_num [optMul, List.getD]

/-- One sparse mask: (1-based pixel index, weight) pairs — the
`mask_pixels` and `mask_weights` columns of one `ExtractRaw.GalvoROI`
row. -/
abbrev Mask := List (ℕ × ℚ)

/-- The scatter loop body of `reshape_masks`:
`mask = np.zeros(px_height * px_width); mask[mp - 1] = mw` (a later pair
overwrites an earlier one at the same index, as numpy fancy assignment
does). -/
def scatterMask (hw : ℕ) (m : Mask) : List ℚ :=
  m.foldl (fun v p => v.set (p.1 - 1) p.2) (List.replicate hw 0)

/-- Column-major (`order='F'`) reshape of a `height*width` vector into a
`height × width` image: entry `(r, c)` is `v[r + c*height]`. -/
def reshapeF (height : ℕ) (v : List ℚ) : ℕ → ℕ → ℚ :=
  fun r c => v.getD (r + c * height) 0

/-- Model of `ExtractRaw.GalvoROI.reshape_masks`: one dense `height × width` image
per mask (the stacking along the third axis is the list). -/
def reshape_masks (height width : ℕ) (masks : List Mask) : List (ℕ → ℕ → ℚ) :=
  masks.map fun m => reshapeF height (scatterMask (height * width) m)

/-- Column-major `ravel` of a `height × width` image, as
`ExtractRaw._make_tuples` does with `location_matrix[:, :, i].ravel(order='F')`. -/
def ravelF (height width : ℕ) (img : ℕ → ℕ → ℚ) : List ℚ :=
  (List.range (height * width)).map fun k => img (k % height) (k / height)

/-- The sparse re-encoding of `ExtractRaw._make_tuples`: `np.where(vec)[0]`
(ascending positions of the nonzero entries), gather the weights there, and
add 1 for matlab-style indices; `pos` is the 0-based position of the
head. -/
def sparseEncode : List ℚ → ℕ → Mask
  | [], _ => []
  | a :: v, pos =>
    if a = 0 then sparseEncode v (pos + 1)
    else (pos + 1, a) :: sparseEncode v (pos + 1)

/-- The full mask round trip: dense reshape, column-major ravel, sparse
re-extraction. -/
def mask_round_trip (height width : ℕ) (masks : List Mask) : List Mask :=
  (reshape_masks height width masks).map fun img =>
    sparseEncode (ravelF height width img) 0

/-- A well-formed sparse mask over `hw` pixels: 1-based indices within
`[1, hw]` and nonzero weights. -/
def ValidMask (hw : ℕ) (m : Mask) : Prop :=
  ∀ p ∈ m, 1 ≤ p.1 ∧ p.1 ≤ hw ∧ p.2 ≠ 0

/-- Pixel indices listed in strictly increasing order. -/
def SortedMask (m : Mask) : Prop :=
  m.Pairwise fun p r => p.1 < r.1

lemma foldl_set_length (m : Mask) :
    ∀ v : List ℚ,
      (m.foldl (fun v p => v.set (p.1 - 1) p.2) v).length = v.length := by
  induction m with
  | nil => intro v; rfl
  | cons p tl ih =>
    intro v
    rw [List.foldl_cons, ih, List.length_set]

lemma scatterMask_length (hw : ℕ) (m : Mask) :
    (scatterMask hw m).length = hw := by
  rw [scatterMask, foldl_set_length, List.length_replicate]

lemma foldl_set_getElem?_not_mem (m : Mask) (i : ℕ)
    (hv1 : ∀ p ∈ m, 1 ≤ p.1) (h : ∀ p ∈ m, p.1 ≠ i + 1) :
    ∀ v : List ℚ,
      (m.foldl (fun v p => v.set (p.1 - 1) p.2) v)[i]? = v[i]? := by
  induction m with
  | nil => intro v; rfl
  | cons p tl ih =>
    intro v
    rw [List.foldl_cons,
      ih (fun r hr => hv1 r (List.mem_cons_of_mem _ hr))
        (fun r hr => h r (List.mem_cons_of_mem _ hr))]
    apply List.getElem?_set_ne
    have h1 := hv1 p (List.mem_cons_self _ _)
    have h2 := h p (List.mem_cons_self _ _)
    omega

lemma foldl_set_getElem?_mem (m : Mask) (i : ℕ) (w : ℚ)
    (hnd : (m.map Prod.fst).Nodup) (hv1 : ∀ p ∈ m, 1 ≤ p.1)
    (hmem : (i + 1, w) ∈ m) :
    ∀ v : List ℚ, i < v.length →
      (m.foldl (fun v p => v.set (p.1 - 1) p.2) v)[i]? = some w := by
  induction m with
  | nil => intro v _; simp at hmem
  | cons p tl ih =>
    intro v hlen
    rw [List.foldl_cons]
    rcases List.mem_cons.1 hmem with hp | hp
    · subst hp
      have hnotin : ∀ r ∈ tl, r.1 ≠ i + 1 := by
        intro r hr hcontra
        have : (i + 1 : ℕ) ∈ tl.map Prod.fst := by
          rw [← hcontra]
          exact List.mem_map_of_mem _ hr
        exact (List.nodup_cons.1 hnd).1 this
      rw [foldl_set_getElem?_not_mem tl i
        (fun r hr => hv1 r (List.mem_cons_of_mem _ hr)) hnotin]
      have : i + 1 - 1 = i := by omega
      rw [this]
      exact List.getElem?_set_eq_of_lt w hlen
    · exact ih (List.nodup_cons.1 hnd).2
        (fun r hr => hv1 r (List.mem_cons_of_mem _ hr)) hp
        (v.set (p.1 - 1) p.2) (by rw [List.length_set]; exact hlen)

lemma sparseEncode_ge (v : List ℚ) :
    ∀ pos, ∀ p ∈ sparseEncode v pos, pos + 1 ≤ p.1 := by
  induction v with
  | nil => intro pos p hp; simp [sparseEncode] at hp
  | cons a tl ih =>
    intro pos p hp
    rw [sparseEncode] at hp
    by_cases ha : a = 0
    · rw [if_pos ha] at hp
      have := ih (pos + 1) p hp
      omega
    · rw [if_neg ha] at hp
      rcases List.mem_cons.1 hp with h | h
      · subst h; exact le_refl _
      · have := ih (pos + 1) p h
        omega

lemma sparseEncode_sorted (v : List ℚ) :
    ∀ pos, (sparseEncode v pos).Pairwise fun p r => p.1 < r.1 := by
  induction v with
  | nil => intro pos; exact List.Pairwise.nil
  | cons a tl ih =>
    intro pos
    rw [sparseEncode]
    by_cases ha : a = 0
    · rw [if_pos ha]; exact ih (pos + 1)
    · rw [if_neg ha]
      refine List.pairwise_cons.2 ⟨?_, ih (pos + 1)⟩
      intro p hp
      have := sparseEncode_ge tl (pos + 1) p hp
      omega

lemma sparseEncode_mem (v : List ℚ) :
    ∀ pos (j : ℕ) (a : ℚ), (j, a) ∈ sparseEncode v pos ↔
      ∃ k, v[k]? = some a ∧ a ≠ 0 ∧ j = pos + k + 1 := by
  induction v with
  | nil =>
    intro pos j a
    simp [sparseEncode]
  | cons b tl ih =>
    intro pos j a
    rw [sparseEncode]
    by_cases hb : b = 0
    · rw [if_pos hb, ih (pos + 1) j a]
      constructor
      · rintro ⟨k, hget, ha, hj⟩
        exact ⟨k + 1, by simpa using hget, ha, by omega⟩
      · rintro ⟨k, hget, ha, hj⟩
        cases k with
        | zero =>
          rw [List.getElem?_cons_zero] at hget
          exact absurd (Option.some.inj hget) (by rw [hb]; exact fun h => ha h.symm)
        | succ k =>
          rw [List.getElem?_cons_succ] at hget
          exact ⟨k, hget, ha, by omega⟩
    · rw [if_neg hb]
      constructor
      · intro hp
        rcases List.mem_cons.1 hp with h | h
        · have hj : j = pos + 1 := congrArg Prod.fst h
          have ha : a = b := congrArg Prod.snd h
          subst ha
          exact ⟨0, by simp, hb, by omega⟩
        · obtain ⟨k, hget, ha, hj⟩ := (ih (pos + 1) j a).1 h
          exact ⟨k + 1, by simpa using hget, ha, by omega⟩
      · rintro ⟨k, hget, ha, hj⟩
        cases k with
        | zero =>
          rw [List.getElem?_cons_zero] at hget
          have hab : b = a := Option.some.inj hget
          subst hab
          have : j = pos + 1 := by omega
          subst this
          exact List.mem_cons_self _ _
        | succ k =>
          rw [List.getElem?_cons_succ] at hget
          exact List.mem_cons_of_mem _
            ((ih (pos + 1) j a).2 ⟨k, hget, ha, by omega⟩)

lemma ravelF_reshapeF (height width : ℕ) (v : List ℚ)
    (hlen : v.length = height * width) :
    ravelF height width (reshapeF height v) = v := by
  apply List.ext_getElem?
  intro k
  by_cases hk : k < height * width
  · rw [ravelF, List.getElem?_map, List.getElem?_range hk]
    have hkv : k < v.length := by omega
    simp only [Option.map_some', reshapeF]
    rw [Nat.mod_add_div' k height, List.getD_eq_getElem?_getD,
      List.getElem?_eq_getElem hkv]
    rfl
  · rw [ravelF, List.getElem?_map,
      List.getElem?_eq_none (by rw [List.length_range]; omega)]
    rw [Option.map_none']
    symm
    apply List.getElem?_eq_none
    omega

lemma scatter_sparse_mem (height width : ℕ) (m : Mask)
    (hv : ValidMask (height * width) m) (hnd : (m.map Prod.fst).Nodup)
    (j : ℕ) (a : ℚ) :
    (j, a) ∈ sparseEncode (scatterMask (height * width) m) 0 ↔ (j, a) ∈ m := by
  have hv1 : ∀ p ∈ m, 1 ≤ p.1 := fun p hp => (hv p hp).1
  constructor
  · intro hmem
    obtain ⟨k, hget, ha, hj⟩ :=
      (sparseEncode_mem (scatterMask (height * width) m) 0 j a).1 hmem
    have hk : k < height * width := by
      have := List.getElem?_eq_some.1 hget
      obtain ⟨hlt, -⟩ := this
      rw [scatterMask_length] at hlt
      exact hlt
    by_cases hpair : ∃ w, (k + 1, w) ∈ m
    · obtain ⟨w, hw⟩ := hpair
      have := foldl_set_getElem?_mem m k w hnd hv1 hw
        (List.replicate (height * width) 0) (by rw [List.length_replicate]; exact hk)
      rw [scatterMask] at hget
      rw [this] at hget
      have haw : a = w := (Option.some.inj hget).symm
      subst haw
      have : j = k + 1 := by omega
      rw [this]
      exact hw
    · push_neg at hpair
      have hno : ∀ p ∈ m, p.1 ≠ k + 1 := by
        intro p hp hcontra
        exact hpair p.2 (by rw [← hcontra]; exact hp)
      rw [scatterMask, foldl_set_getElem?_not_mem m k hv1 hno,
        List.getElem?_replicate, if_pos hk] at hget
      exact absurd (Option.some.inj hget).symm ha
  · intro hmem
    have h1 := hv (j, a) hmem
    have hjk : j - 1 + 1 = j := by omega
    refine (sparseEncode_mem (scatterMask (height * width) m) 0 j a).2
      ⟨j - 1, ?_, h1.2.2, by omega⟩
    rw [scatterMask]
    rw [foldl_set_getElem?_mem m (j - 1) a hnd hv1 (by rw [hjk]; exact hmem)
      (List.replicate (height * width) 0)
      (by rw [List.length_replicate]; omega)]

/-- The round trip for one well-formed, index-sorted mask. -/
lemma single_mask_round_trip (height width : ℕ) (m : Mask)
    (hv : ValidMask (height * width) m) (hs : SortedMask m) :
    sparseEncode
      (ravelF height width (reshapeF height (scatterMask (height * width) m)))
      0 = m := by
  rw [ravelF_reshapeF height width _ (scatterMask_length (height * width) m)]
  have hnd : (m.map Prod.fst).Nodup :=
    (List.pairwise_map.2 hs).imp fun h => Nat.ne_of_lt h
  have hsort1 : (sparseEncode (scatterMask (height * width) m) 0).Pairwise
      fun p r => p.1 < r.1 := sparseEncode_sorted _ 0
  have hnd1 : (sparseEncode (scatterMask (height * width) m) 0).Nodup :=
    hsort1.imp fun h heq => absurd (heq ▸ h) (lt_irrefl _)
  have hnd2 : m.Nodup := hs.imp fun h heq => absurd (heq ▸ h) (lt_irrefl _)
  have hperm : List.Perm (sparseEncode (scatterMask (height * width) m) 0) m := by
    apply List.perm_of_nodup_nodup_toFinset_eq hnd1 hnd2
    apply Finset.ext
    intro p
    rw [List.mem_toFinset, List.mem_toFinset]
    exact scatter_sparse_mem height width m hv hnd p.1 p.2
  haveI : IsAntisymm (ℕ × ℚ) (fun p r => p.1 < r.1) :=
    ⟨fun p r h1 h2 => absurd (lt_trans h1 h2) (lt_irrefl _)⟩
  exact List.eq_of_perm_of_sorted hperm hsort1 hs

/-- C2 (corrected): for masks whose 1-based pixel indices are in range,
listed in strictly increasing order, with nonzero weights, the
reshape-then-re-extract round trip reproduces the sparse encoding exactly.
Without the ordering hypothesis the claim fails: `np.where` re-extracts the
pairs sorted by pixel index (see the counterexample). -/
theorem reshape_masks_round_trip (height width : ℕ) (masks : List Mask)
    (hv : ∀ m ∈ masks, ValidMask (height * width) m)
    (hs : ∀ m ∈ masks, SortedMask m) :
    mask_round_trip height width masks = masks := by
  rw [mask_round_trip, reshape_masks, List.map_map]
  conv_rhs => rw [← List.map_id masks]
  apply List.map_congr_left
  intro m hm
  exact single_mask_round_trip height width m (hv m hm) (hs m hm)

/-- Witness for C2: a sorted two-pixel mask on a 2 × 2 image survives the
round trip unchanged. -/
theorem reshape_masks_round_trip_witness :
    mask_round_trip 2 2 [[(1, 3), (4, 5)]] = [[(1, 3), (4, 5)]] :=
  reshape_masks_round_trip 2 2 [[(1, 3), (4, 5)]]
    (by intro m hm; simp at hm; subst hm; intro p hp
        rcases List.mem_cons.1 hp with h | h
        · subst h; refine ⟨by norm_num, by norm_num, by norm_num⟩
        · simp at h; subst h; refine ⟨by norm_num, by norm_num, by norm_num⟩)
    (by intro m hm; simp at hm; subst hm
        exact List.pairwise_cons.2 ⟨by intro p hp; simp at hp; subst hp; norm_num,
          List.pairwise_singleton _ _⟩)

/-- Counterexample for C2: the mask `[(2, 5), (1, 7)]` on a 1 × 2 image has
in-range distinct indices and nonzero weights, yet the round trip returns
`[(1, 7), (2, 5)]` — the same pairs sorted by pixel index, not the original
encoding. -/
theorem reshape_masks_round_trip_cex :
    ValidMask (1 * 2) [(2, 5), (1, 7)]
    ∧ (([(2, 5), (1, 7)] : Mask).map Prod.fst).Nodup
    ∧ mask_round_trip 1 2 [[(2, 5), (1, 7)]] = [[(1, 7), (2, 5)]]
    ∧ [[((1 : ℕ), (7 : ℚ)), (2, 5)]] ≠ [[(2, 5), (1, 7)]] := by
  refine ⟨?_, ?_, ?_, ?_⟩
  · intro p hp
    rcases List.mem_cons.1 hp with h | h
    · subst h; refine ⟨by norm_num, by norm_num, by norm_num⟩
    · simp at h; subst h; refine ⟨by norm_num, by norm_num, by norm_num⟩
  · simp
  · norm_num [mask_round_trip, reshape_masks, scatterMask, reshapeF, ravelF,
      sparseEncode, List.replicate, List.range, List.range.loop, List.getD]
  · intro h
    norm_num at h

end Pipeline
